import Mathlib

/-!
Verification of the Merkle Patricia Forest off-chain library
(src/off-chain/lib/index.js) against its specification.

The JavaScript source is shallowly embedded:

* byte buffers are `Bytes := List Nat` (each entry one byte);
* hex paths (sequences of nibbles) are `Path := List (Fin 16)`;
* the Blake2b-256 digest comes from the external `blake2b` npm package, so
  every definition is parameterised over `dg : Bytes → Bytes`;
* the helpers `commonPrefix` and `nibbles` live in
  src/off-chain/lib/helpers.js, which is not included under src/; they are
  modelled from the spec (sections 4.3 and 6.4) and marked as such;
* JavaScript exceptions (`assert`, `throw`) are modelled by `Except`/`Option`
  results; a JS function that can return `undefined` returns an `Option`;
* the recursive tree builder `Tree.fromList.loop` is modelled with an explicit
  fuel argument (`loopF`); the fuel `keysWeight kvs + 1` strictly dominates the
  recursion depth, because every recursive call strictly decreases the total
  length of the keys in the working set, so the fuel-exhaustion branch is
  unreachable from `Tree.fromList`.
-/

namespace MPF

abbrev Bytes := List Nat

abbrev Nib := Fin 16

abbrev Path := List Nib

/-- Longest common prefix of two nibble paths. -/
def lcp : Path → Path → Path
  | a :: as, b :: bs => if a = b then a :: lcp as bs else []
  | _, _ => []

/-- Modelled from the spec: `commonPrefix` is defined in
src/off-chain/lib/helpers.js, which is missing from src/. Spec section 4.3
step 2 describes it as the common hex-string prefix of all keys in the
working set; for a single key that is the key itself. -/
def commonPfxStep (k : Path) (acc : Option Path) : Option Path :=
  match acc with
  | none => some k
  | some a => some (lcp k a)

/-- Modelled from the spec (continued): fold the pairwise longest common
prefix over the key list. -/
def commonPfx (keys : List Path) : Path :=
  (keys.foldr commonPfxStep none).getD []

/-- Modelled from the spec: `nibbles` is defined in
src/off-chain/lib/helpers.js, which is missing from src/. Spec section 6.4:
pairs of nibbles (high, low) form each byte in order; if the length is odd,
the final nibble occupies the high half of the last byte and the low half is
zero. This encoding participates in Branch hashes (BranchNode.setPrefix). -/
def nibblesBytes : Path → Bytes
  | [] => []
  | [a] => [16 * a.val]
  | a :: b :: rest => (16 * a.val + b.val) :: nibblesBytes rest

/-- One byte rendered as its two hex nibbles, high nibble first (the hex
encoding used by `Buffer.toString('hex')`). -/
def byteNibbles (b : Nat) : Path :=
  [⟨b / 16 % 16, by omega⟩, ⟨b % 16, by omega⟩]

/-- Hex encoding of a byte buffer as a nibble path. -/
def toNibbles (bs : Bytes) : Path :=
  bs.flatMap byteNibbles

/-- Function `intoKey` from index.js: the hex encoding of the digest of a value. -/
def intoKey (dg : Bytes → Bytes) (value : Bytes) : Path :=
  toNibbles (dg value)

/-- The tree node variants of index.js: the vestigial empty `Tree` instance,
`Leaf`, and `BranchNode` (a 16-slot sparse child vector; `undefined` slots are
`none`). -/
inductive Tree where
  | empty : Tree
  | leaf (pfx : Path) (value : Bytes) : Tree
  | branch (pfx : Path) (children : List (Option Tree)) : Tree

mutual

/-- Field `size`: number of leaves, as computed by the constructors in index.js
(`0` for the empty tree, `1` for a leaf, the sum over present children for a
branch). -/
def Tree.size : Tree → Nat
  | .empty => 0
  | .leaf _ _ => 1
  | .branch _ cs => sizeChildren cs

def sizeChildren : List (Option Tree) → Nat
  | [] => 0
  | none :: rest => sizeChildren rest
  | some t :: rest => t.size + sizeChildren rest

end

/-- Method `Tree.isEmpty`: true iff `size == 0`. -/
def Tree.isEmpty (t : Tree) : Bool :=
  t.size == 0

mutual

/-- The node hash: all zeroes for the empty tree, `digest(value)` for a leaf
(`Leaf.setPrefix` ignores the prefix), and
`digest(nibbles(prefix) ++ h_0 ++ … ++ h_k)` over the present children for a
branch (`BranchNode.setPrefix`). -/
def Tree.hash (dg : Bytes → Bytes) : Tree → Bytes
  | .empty => List.replicate 32 0
  | .leaf _ v => dg v
  | .branch p cs => dg (nibblesBytes p ++ hashChildren dg cs)

/-- Concatenation of the hashes of the present children, in ascending branch
order (`children.flatMap` in `BranchNode.setPrefix`). -/
def hashChildren (dg : Bytes → Bytes) : List (Option Tree) → Bytes
  | [] => []
  | none :: rest => hashChildren dg rest
  | some t :: rest => Tree.hash dg t ++ hashChildren dg rest

end

/-- The branch hashing rule applied to a list of child hashes rather than
child nodes: this is `BranchNode.prototype.setPrefix.call({children}, pfx)`
as used by `Proof.verify` (undefined slots contribute nothing). -/
def branchHashOf (dg : Bytes → Bytes) (pfx : Path) (childHashes : List (Option Bytes)) : Bytes :=
  dg (nibblesBytes pfx ++ (childHashes.filterMap id).flatten)

/-- A key/value pair of the builder working set (the key is the hex digest of
the value, progressively consumed during the recursion). -/
structure KV where
  key : Path
  value : Bytes

/-- The bucket of working-set entries whose (stripped) key starts with digit
`d`, with that digit dropped — the `reduce` inside `Tree.fromList.loop`. -/
def bucket (d : Nib) (kvs : List KV) : List KV :=
  (kvs.filter fun kv => kv.key.head? == some d).map fun kv => ⟨kv.key.tail, kv.value⟩

/-- Total length of the keys of the working set; used as fuel bound for
`loopF`. -/
def keysWeight (kvs : List KV) : Nat :=
  (kvs.map fun kv => kv.key.length).sum

/-- Collect the recursive builder results; `none` (a failed recursive call)
makes the whole construction fail, mirroring exception propagation. -/
def allSome : List (Option Tree) → Option (List Tree)
  | [] => some []
  | none :: _ => none
  | some t :: rest => (allSome rest).map (t :: ·)

/-- The recursive `loop` of `Tree.fromList`, with explicit fuel. A `none`
result models a thrown `AssertionError` (an empty key in a multi-element
working set — duplicate keys — or a `BranchNode` constructed with fewer than
two present children); the fuel-exhaustion branch is unreachable from
`Tree.fromList` because each recursive call strictly decreases `keysWeight`. -/
def loopF : Nat → List KV → Option Tree
  | 0, _ => none
  | fuel + 1, kvs =>
    match kvs with
    | [] => some .empty
    | [kv] => some (.leaf (commonPfx [kv.key]) kv.value)
    | kv0 :: kv1 :: krest =>
      let kvs2 := kv0 :: kv1 :: krest
      let p := commonPfx (kvs2.map KV.key)
      let stripped := kvs2.map fun kv => KV.mk (kv.key.drop p.length) kv.value
      if stripped.all fun kv => !kv.key.isEmpty then
        match allSome ((List.finRange 16).map fun d => loopF fuel (bucket d stripped)) with
        | none => none
        | some ts =>
          let slots := ts.map fun t => if t.isEmpty then none else some t
          if 2 ≤ (slots.filterMap id).length then some (.branch p slots) else none
      else none

/-- Builder `Tree.fromList`: key every value by the hex digest of its serialisation
and run the recursive builder. -/
def Tree.fromList (dg : Bytes → Bytes) (values : List Bytes) : Option Tree :=
  let kvs := values.map fun v => KV.mk (intoKey dg v) v
  loopF (keysWeight kvs + 1) kvs

/-- One proof step: the length of the branch prefix at that level and the
15-entry neighbor list (`undefined` slots kept as `none`). -/
structure Step where
  skip : Nat
  neighbors : List (Option Bytes)

/-- A proof: the value it is for plus the root-to-leaf list of steps. -/
structure Proof where
  value : Bytes
  steps : List Step

/-- The neighbor list recorded by `Proof.rewind`: the hashes of all children
except the target (`undefined` children stay as `none`; children whose hash
equals the target hash are dropped, per `x?.hash.equals(target.hash)`). -/
def neighborsOf (dg : Bytes → Bytes) (target : Tree) (children : List (Option Tree)) :
    List (Option Bytes) :=
  children.flatMap fun x =>
    match x with
    | none => [none]
    | some t => if Tree.hash dg t = Tree.hash dg target then [] else [some (Tree.hash dg t)]

/-- Method `Proof.rewind`: prepend a step recording the prefix length and the
neighbor hashes. -/
def Proof.rewind (pf : Proof) (dg : Bytes → Bytes) (target : Tree) (skip : Nat)
    (children : List (Option Tree)) : Proof :=
  ⟨pf.value, ⟨skip, neighborsOf dg target children⟩ :: pf.steps⟩

/-- The three failure modes of `walk`, each carrying exactly the data the
JavaScript error message interpolates: the empty-tree error names the path;
the prefix-mismatch assertion names the remaining path and the offending
prefix; the absent-child assertion names the remaining path (after stripping
the branch prefix) and the branch index (`none` models the `NaN` obtained by
parsing past the end of the path). -/
inductive WalkError where
  | emptyTree (path : Path)
  | nonMatching (path : Path) (pfx : Path)
  | noChild (path : Path) (branch : Option Nib)

mutual

/-- Method `walk`: follow a path down the tree, building a proof bottom-up. The
empty tree throws; a leaf checks its prefix against the path; a branch checks
its prefix, dispatches on the next nibble and prepends a step via `rewind`. -/
def Tree.walk (dg : Bytes → Bytes) : Tree → Path → Except WalkError Proof
  | .empty, path => .error (.emptyTree path)
  | .leaf p v, path =>
    if p.isPrefixOf path then .ok ⟨v, []⟩ else .error (.nonMatching path p)
  | .branch p cs, path =>
    if p.isPrefixOf path then
      match path.drop p.length with
      | [] => .error (.noChild [] none)
      | b :: rest => walkSlots dg cs p.length (b :: rest) b cs b.val
    else .error (.nonMatching path p)

/-- Look up slot `n` of `cs` (the `children[branch]` indexing) and recurse
into it; an out-of-range or `undefined` slot is the absent-child assertion. -/
def walkSlots (dg : Bytes → Bytes) (cs₀ : List (Option Tree)) (skip : Nat) (path' : Path)
    (b : Nib) : List (Option Tree) → Nat → Except WalkError Proof
  | [], _ => .error (.noChild path' (some b))
  | none :: _, 0 => .error (.noChild path' (some b))
  | some t :: _, 0 => (Tree.walk dg t path'.tail).map fun pf => pf.rewind dg t skip cs₀
  | _ :: rest, n + 1 => walkSlots dg cs₀ skip path' b rest n

end

/-- Method `Tree.prove`: walk the tree along the hex digest of the value. -/
def Tree.prove (dg : Bytes → Bytes) (t : Tree) (value : Bytes) : Except WalkError Proof :=
  t.walk dg (intoKey dg value)

/-- The children list reconstructed by `Proof.verify`:
`neighbors.slice(0, nibble) ++ (acc or nothing) ++ neighbors.slice(nibble)`.
A `none` nibble models the `NaN` produced by reading past the end of the
path, for which `slice(0, NaN)` is empty and `slice(NaN)` is the whole
array. -/
def spliceChildren (neighbors : List (Option Bytes)) (nib : Option Nib)
    (acc : Option Bytes) : List (Option Bytes) :=
  let accL : List (Option Bytes) := match acc with | none => [] | some h => [some h]
  match nib with
  | some n => neighbors.take n.val ++ accL ++ neighbors.drop n.val
  | none => accL ++ neighbors

/-- One reduction step of `Proof.verify`'s `reduceRight`, acting on the pair
(cursor, accumulator). Note the source reads the dispatch nibble at
`path[cursor]` after decrementing the cursor — the first nibble of the level's
prefix region — not at `path[cursor + skip]`. -/
def verifyStep (dg : Bytes → Bytes) (path : Path) (st : Step) :
    Nat × Option Bytes → Nat × Option Bytes
  | (cursor, acc) =>
    let cursor' := cursor - (1 + st.skip)
    let nib := path[cursor']?
    let pfx := if st.skip = 0 then [] else (path.drop cursor').take st.skip
    let defined := st.neighbors.filterMap id
    if acc = none ∧ defined.length = 1 then
      (cursor', defined.head?)
    else
      (cursor', some (branchHashOf dg pfx (spliceChildren st.neighbors nib acc)))

/-- The `reduceRight` over the steps: later (deeper) steps are processed first. -/
def goVerify (dg : Bytes → Bytes) (path : Path) :
    List Step → Nat × Option Bytes → Nat × Option Bytes
  | [], ca => ca
  | st :: rest, ca => verifyStep dg path st (goVerify dg path rest ca)

/-- Method `Proof.verify`: recompute a candidate root hash from the proof, with or
without the element. The initial accumulator with the element is
`Leaf.prototype.setPrefix.call({value}, suffix).hash`, which is just
`digest(value)` since the leaf hash ignores the prefix; without the element
it is `undefined` (`none`). A `none` result models returning `undefined`. -/
def Proof.verify (dg : Bytes → Bytes) (pf : Proof) (withElement : Bool) : Option Bytes :=
  let path := intoKey dg pf.value
  let cursor := pf.steps.foldl (fun c st => c + 1 + st.skip) 0
  let zero := if withElement then some (dg pf.value) else none
  (goVerify dg path pf.steps (cursor, zero)).2

/-- The `lookup` table built by `Proof.serialise`: one byte per neighbor
entry, holding the running count of defined neighbors seen so far. -/
def lookupGo (nextDefined : Nat) : List (Option Bytes) → List Nat
  | [] => []
  | x :: rest => nextDefined :: lookupGo (if x.isSome then nextDefined + 1 else nextDefined) rest

/-- The logical content of one serialised proof step (the JSON rendering is
abstracted away): the skip, the concatenated defined neighbor hashes, and the
lookup byte string. -/
structure SerStep where
  skip : Nat
  neighbors : Bytes
  lookup : List Nat

/-- Method `Proof.serialise`, per step. -/
def Proof.serialise (pf : Proof) : List SerStep :=
  pf.steps.map fun st =>
    ⟨st.skip, (st.neighbors.filterMap id).flatten, lookupGo 0 st.neighbors⟩

/-- One step of `Tree.childAt`'s `reduce`: `tree?.children[nibble]`. Optional
chaining propagates an absent tree; indexing into the `undefined` `children`
of an Empty node or a Leaf throws a TypeError, modelled as `.error ()`. -/
def childAtStep : Option Tree → Nib → Except Unit (Option Tree)
  | none, _ => .ok none
  | some (.branch _ cs), n => .ok (cs.getD n.val none)
  | some _, _ => .error ()

/-- Method `Tree.childAt`: walk the path one nibble at a time through the children
vectors. -/
def Tree.childAt (t : Tree) (path : Path) : Except Unit (Option Tree) :=
  path.foldlM childAtStep (some t)

/-- The paths along which `childAt`'s reduction only ever indexes a Branch's
children (or an already-absent result): exactly the combinations on which the
traversal cannot throw. -/
def branchPathOk : Option Tree → Path → Bool
  | _, [] => true
  | none, _ :: rest => branchPathOk none rest
  | some (.branch _ cs), a :: rest => branchPathOk (cs.getD a.val none) rest
  | some .empty, _ :: _ => false
  | some (.leaf _ _), _ :: _ => false

/-- The 16-slot children vector of a two-leaf branch: a present child at
slots `x` and `y`, absent elsewhere. -/
def pairSlots (x y : Nib) (t1 t2 : Tree) : List (Option Tree) :=
  (List.finRange 16).map fun d => if d = x then some t1 else if d = y then some t2 else none

/-- The neighbor list recorded when proving the slot-`x` child of a two-leaf
branch: slot `x` removed, the hash of the slot-`y` sibling kept, absent slots
kept as `none`. -/
def pairNeighbors (x y : Nib) (h2 : Bytes) : List (Option Bytes) :=
  (List.finRange 16).flatMap fun d => if d = x then [] else if d = y then [some h2] else [none]

mutual

/-- Branches have exactly 16 child slots, recursively; this is an invariant
of trees produced by `Tree.fromList` (the children vector is built by mapping
over the 16 hex digits). -/
def shape16 : Tree → Bool
  | .empty => true
  | .leaf _ _ => true
  | .branch _ cs => (cs.length == 16) && shape16Slots cs

def shape16Slots : List (Option Tree) → Bool
  | [] => true
  | none :: rest => shape16Slots rest
  | some t :: rest => shape16 t && shape16Slots rest

end

mutual

/-- The hypothesis of C10: at every branch, distinct present children have
distinct hashes. -/
def hashDistinct (dg : Bytes → Bytes) : Tree → Bool
  | .empty => true
  | .leaf _ _ => true
  | .branch _ cs =>
    decide (((cs.filterMap id).map (Tree.hash dg)).Nodup) && hashDistinctSlots dg cs

def hashDistinctSlots (dg : Bytes → Bytes) : List (Option Tree) → Bool
  | [] => true
  | none :: rest => hashDistinctSlots dg rest
  | some t :: rest => hashDistinct dg t && hashDistinctSlots dg rest

end

/-- A concrete stand-in digest used to evaluate the model on explicit inputs:
pad the value with zeroes to 32 bytes. (The real digest is the external
Blake2b-256 package, which all definitions take as a parameter.) -/
def dgPad (v : Bytes) : Bytes :=
  (v ++ List.replicate 32 0).take 32

end MPF

namespace MPF

theorem hashChildren_eq_flatten (dg : Bytes → Bytes) :
    ∀ cs : List (Option Tree), hashChildren dg cs = ((cs.filterMap id).map (Tree.hash dg)).flatten
  | [] => rfl
  | none :: rest => by
    simp [hashChildren, hashChildren_eq_flatten dg rest]
  | some t :: rest => by
    simp [hashChildren, hashChildren_eq_flatten dg rest]

theorem nibblesBytes_length : ∀ p : Path, (nibblesBytes p).length = (p.length + 1) / 2
  | [] => rfl
  | [_] => by simp [nibblesBytes]
  | a :: b :: rest => by
    have ih := nibblesBytes_length rest
    simp [nibblesBytes, ih]
    omega

theorem nibblesBytes_getElem? : ∀ (p : Path) (i : Nat),
    (nibblesBytes p)[i]? = (p[2 * i]?).map fun a => 16 * a.val + ((p[2 * i + 1]?).getD 0).val
  | [], i => by simp [nibblesBytes]
  | [a], i => by
    match i with
    | 0 => simp [nibblesBytes]
    | n + 1 =>
      have h1 : ([a] : Path).length ≤ 2 * (n + 1) := by simp; omega
      simp [nibblesBytes, List.getElem?_eq_none h1]
  | a :: b :: rest, i => by
    match i with
    | 0 => simp [nibblesBytes]
    | n + 1 =>
      have ih := nibblesBytes_getElem? rest n
      have h2 : 2 * (n + 1) = 2 * n + 1 + 1 := by omega
      have h3 : 2 * (n + 1) + 1 = 2 * n + 1 + 1 + 1 := by omega
      simp [nibblesBytes, h2, h3, ih]

end MPF

namespace MPF

/-- C4. For every Leaf node, however its prefix was assigned, its hash equals
`digest(value)` alone; the prefix does not enter the hash, so two leaves with
the same value and different prefixes share their hash (`Leaf.setPrefix`). -/
theorem C4_leaf_hash (dg : Bytes → Bytes) (p q : Path) (v : Bytes) :
    Tree.hash dg (.leaf p v) = dg v ∧
      Tree.hash dg (.leaf p v) = Tree.hash dg (.leaf q v) :=
  ⟨rfl, rfl⟩

/-- C5. For every Branch node, its hash is
`digest(nibbles(prefix) ++ h_0 ++ … ++ h_k)` where the `h_i` are the hashes of
exactly the present children in ascending slot order, and `nibbles` packs two
nibbles per byte high-first, an odd trailing nibble occupying the high half of
the final byte (byte `i` is `16 * p[2i] + p[2i+1]`, with a missing low nibble
read as zero, and there are `⌈n/2⌉` bytes). -/
theorem C5_branch_hash (dg : Bytes → Bytes) (p : Path) (cs : List (Option Tree)) :
    Tree.hash dg (.branch p cs)
        = dg (nibblesBytes p ++ ((cs.filterMap id).map (Tree.hash dg)).flatten) ∧
      (nibblesBytes p).length = (p.length + 1) / 2 ∧
      ∀ i : Nat, (nibblesBytes p)[i]?
        = (p[2 * i]?).map fun a => 16 * a.val + ((p[2 * i + 1]?).getD 0).val := by
  refine ⟨?_, nibblesBytes_length p, nibblesBytes_getElem? p⟩
  simp [Tree.hash, hashChildren_eq_flatten]

/-- C6 (evaluation). On a proof with an empty steps list, `verify` with
`with_element = false` does not raise: the `reduceRight` never runs and the
function returns the initial `undefined` accumulator. -/
theorem C6_verify_empty_steps (dg : Bytes → Bytes) (v : Bytes) :
    Proof.verify dg ⟨v, []⟩ false = none :=
  rfl

/-- C1 (evaluation at the failing input). With the pad-to-32 digest and the
two values `0x52`, `0x53` (keys `52…`, `53…`, so the root branch has prefix
`5` and children at slots 2 and 3), the proof of `0x52` verifies with the
element to `digest(50 ‖ h₅₃ ‖ h₅₂)` — the verifier reads the dispatch nibble
at `path[cursor]` (the prefix nibble 5) instead of `path[cursor + skip]`
(slot 2) and splices the leaf hash at slot 5, after the neighbor — while the
actual root hash is `digest(50 ‖ h₅₂ ‖ h₅₃)`. -/
theorem C1_verify_bug_eval :
    ((Tree.fromList dgPad [[82], [83]]).bind fun t =>
        (Tree.prove dgPad t [82]).toOption.bind fun pf => Proof.verify dgPad pf true)
      = some (80 :: 83 :: List.replicate 30 0) ∧
    (Tree.fromList dgPad [[82], [83]]).map (Tree.hash dgPad)
      = some (80 :: 82 :: List.replicate 30 0) ∧
    (80 :: 83 :: List.replicate 30 0 : Bytes) ≠ 80 :: 82 :: List.replicate 30 0 := by
  refine ⟨by decide, by decide, by decide⟩

/-- C2 (counterexample). With the pad-to-32 digest and
`S = {00, 10·00, 10·10}` (keys `00…`, `1000…`, `1010…`), removing `00` leaves
a branch sibling: `verify(false)` on the proof of `00` returns that sibling's
hash unchanged, but in `build(S \ {00})` the sibling is re-hashed with the
longer prefix `10`, so the results differ. -/
theorem C2_counterexample :
    ((Tree.fromList dgPad [[0], [16, 0], [16, 16]]).bind fun t =>
        (Tree.prove dgPad t [0]).toOption.bind fun pf => Proof.verify dgPad pf false)
      = some (0 :: 16 :: List.replicate 30 0) ∧
    (Tree.fromList dgPad [[16, 0], [16, 16]]).map (Tree.hash dgPad)
      = some (16 :: 16 :: List.replicate 30 0) ∧
    (0 :: 16 :: List.replicate 30 0 : Bytes) ≠ 16 :: 16 :: List.replicate 30 0 := by
  refine ⟨by decide, by decide, by decide⟩

/-- C7 (counterexample). For the two-element tree over `{0x52, 0x53}`, the
proof of `0x52` has one step, and its serialised `lookup` field has 15 bytes
(one per neighbor entry, the chosen child's slot having been removed), not 16. -/
theorem C7_counterexample :
    ((Tree.fromList dgPad [[82], [83]]).bind fun t =>
        (Tree.prove dgPad t [82]).toOption.map fun pf =>
          pf.serialise.map fun s => s.lookup.length)
      = some [15] ∧ (15 : Nat) ≠ 16 := by
  refine ⟨by decide, by decide⟩

/-- C9 (counterexample). `child_at` does fail on some tree/path combinations:
on the empty tree with the one-nibble path `0`, `tree.children` is
`undefined` and indexing it throws a TypeError. -/
theorem C9_counterexample : Tree.childAt .empty [0] = .error () :=
  rfl

end MPF

namespace MPF

theorem exceptBind_ok {ε α β : Type} (a : α) (g : α → Except ε β) :
    ((Except.ok a : Except ε α) >>= g) = g a := rfl

theorem exceptBind_error {ε α β : Type} (e : ε) (g : α → Except ε β) :
    ((Except.error e : Except ε α) >>= g) = Except.error e := rfl

theorem branchPathOk_nil (ot : Option Tree) : branchPathOk ot [] = true := by
  match ot with
  | none => rfl
  | some .empty => rfl
  | some (.leaf _ _) => rfl
  | some (.branch _ _) => rfl

theorem foldlM_childAt_ok_iff : ∀ (path : Path) (ot : Option Tree),
    (∃ r, List.foldlM childAtStep ot path = .ok r) ↔ branchPathOk ot path = true
  | [], ot => iff_of_true ⟨ot, rfl⟩ (branchPathOk_nil ot)
  | a :: rest, ot => by
    match ot with
    | none =>
      simpa [List.foldlM_cons, childAtStep, branchPathOk, exceptBind_ok] using
        foldlM_childAt_ok_iff rest none
    | some (.branch p cs) =>
      simpa [List.foldlM_cons, childAtStep, branchPathOk, exceptBind_ok] using
        foldlM_childAt_ok_iff rest (cs.getD a.val none)
    | some .empty =>
      simp [List.foldlM_cons, childAtStep, branchPathOk, exceptBind_error]
    | some (.leaf q v) =>
      simp [List.foldlM_cons, childAtStep, branchPathOk, exceptBind_error]

/-- C9 (amended). `child_at(path)` walks the path one nibble at a time,
indexing each nibble into the current Branch's children, and returns the
deepest node reached (or Absent once a step has no child, absence
propagating); but it does not succeed on every tree/path combination: it
succeeds exactly when no traversal step indexes into an Empty or Leaf node,
and throws a TypeError otherwise. -/
theorem C9_childAt_ok_iff (t : Tree) (path : Path) :
    (∃ r, Tree.childAt t path = .ok r) ↔ branchPathOk (some t) path = true :=
  foldlM_childAt_ok_iff path (some t)

end MPF

namespace MPF

theorem lcp_nil_left (b : Path) : lcp [] b = [] := by cases b <;> rfl

theorem lcp_nil_right (a : Path) : lcp a [] = [] := by cases a <;> rfl

theorem lcp_comm : ∀ a b : Path, lcp a b = lcp b a
  | [], b => by rw [lcp_nil_left, lcp_nil_right]
  | a :: as, [] => by rw [lcp_nil_left, lcp_nil_right]
  | a :: as, b :: bs => by
    by_cases h : a = b
    · subst h
      simp [lcp, lcp_comm as bs]
    · simp [lcp, h, Ne.symm h]

theorem lcp_assoc : ∀ a b c : Path, lcp (lcp a b) c = lcp a (lcp b c)
  | [], b, c => by rw [lcp_nil_left, lcp_nil_left, lcp_nil_left]
  | a :: as, [], c => by rw [lcp_nil_right, lcp_nil_left, lcp_nil_right]
  | a :: as, b :: bs, [] => by rw [lcp_nil_right, lcp_nil_right, lcp_nil_right]
  | a :: as, b :: bs, c :: cs => by
    by_cases hab : a = b
    · subst hab
      by_cases hbc : a = c
      · subst hbc
        simp [lcp, lcp_assoc as bs cs]
      · simp [lcp, hbc]
    · by_cases hbc : b = c
      · subst hbc
        simp [lcp, hab]
      · simp [lcp, hab, hbc, lcp_nil_left]

theorem commonPfxStep_comm (x y : Path) (z : Option Path) :
    commonPfxStep y (commonPfxStep x z) = commonPfxStep x (commonPfxStep y z) := by
  match z with
  | none => simp [commonPfxStep, lcp_comm x y]
  | some a =>
    simp only [commonPfxStep, Option.some.injEq]
    rw [← lcp_assoc, ← lcp_assoc, lcp_comm y x]

theorem commonPfx_perm {l₁ l₂ : List Path} (h : l₁.Perm l₂) : commonPfx l₁ = commonPfx l₂ := by
  unfold commonPfx
  rw [h.foldr_eq' (fun x _ y _ z => commonPfxStep_comm x y z) none]

theorem perm_all {α : Type} (f : α → Bool) {l₁ l₂ : List α} (h : l₁.Perm l₂) :
    l₁.all f = l₂.all f := by
  rw [Bool.eq_iff_iff]
  simp only [List.all_eq_true]
  exact ⟨fun H x hx => H x (h.mem_iff.mpr hx), fun H x hx => H x (h.mem_iff.mp hx)⟩

theorem bucket_perm (d : Nib) {l₁ l₂ : List KV} (h : l₁.Perm l₂) :
    (bucket d l₁).Perm (bucket d l₂) :=
  (h.filter _).map _

theorem keysWeight_perm {l₁ l₂ : List KV} (h : l₁.Perm l₂) : keysWeight l₁ = keysWeight l₂ :=
  (h.map _).sum_eq

theorem loopF_perm : ∀ (fuel : Nat) {l₁ l₂ : List KV}, l₁.Perm l₂ → loopF fuel l₁ = loopF fuel l₂
  | 0, _, _, _ => rfl
  | fuel + 1, l₁, l₂, h => by
    match l₁, l₂ with
    | [], l₂ => rw [h.symm.eq_nil]
    | [kv], l₂ => rw [h.symm.eq_singleton]
    | kv0 :: kv1 :: krest, [] => exact absurd h.length_eq (by simp)
    | kv0 :: kv1 :: krest, [m] => exact absurd h.length_eq (by simp)
    | kv0 :: kv1 :: krest, m0 :: m1 :: mrest =>
      simp only [loopF]
      have hp : commonPfx ((kv0 :: kv1 :: krest).map KV.key)
          = commonPfx ((m0 :: m1 :: mrest).map KV.key) := commonPfx_perm (h.map _)
      rw [← hp]
      have hs : ((kv0 :: kv1 :: krest).map fun kv =>
            KV.mk (kv.key.drop (commonPfx ((kv0 :: kv1 :: krest).map KV.key)).length) kv.value).Perm
          ((m0 :: m1 :: mrest).map fun kv =>
            KV.mk (kv.key.drop (commonPfx ((kv0 :: kv1 :: krest).map KV.key)).length) kv.value) :=
        h.map _
      rw [perm_all _ hs]
      have hmap : (List.finRange 16).map (fun d => loopF fuel (bucket d
            ((kv0 :: kv1 :: krest).map fun kv =>
              KV.mk (kv.key.drop (commonPfx ((kv0 :: kv1 :: krest).map KV.key)).length) kv.value)))
          = (List.finRange 16).map (fun d => loopF fuel (bucket d
            ((m0 :: m1 :: mrest).map fun kv =>
              KV.mk (kv.key.drop (commonPfx ((kv0 :: kv1 :: krest).map KV.key)).length) kv.value))) :=
        List.map_congr_left fun d _ => loopF_perm fuel (bucket_perm d hs)
      rw [hmap]

/-- C3. Building from any permutation of the value list yields the same tree,
hence the same root hash: every ingredient of the builder (the common prefix,
the nibble buckets, and the 16-ary children order) is order-independent. -/
theorem C3_fromList_perm (dg : Bytes → Bytes) (vs₁ vs₂ : List Bytes) (h : vs₁.Perm vs₂) :
    (Tree.fromList dg vs₁).map (Tree.hash dg) = (Tree.fromList dg vs₂).map (Tree.hash dg) := by
  have hkv : (vs₁.map fun v => KV.mk (intoKey dg v) v).Perm
      (vs₂.map fun v => KV.mk (intoKey dg v) v) := h.map _
  unfold Tree.fromList
  dsimp only
  rw [keysWeight_perm hkv, loopF_perm _ hkv]

/-- Witness for C3 at a concrete input: swapping the two values of a
two-element build leaves the root hash unchanged. -/
theorem C3_witness :
    ([[82], [83]] : List Bytes).Perm [[83], [82]] ∧
      (Tree.fromList dgPad [[82], [83]]).map (Tree.hash dgPad)
        = (Tree.fromList dgPad [[83], [82]]).map (Tree.hash dgPad) :=
  ⟨List.Perm.swap [83] [82] [], C3_fromList_perm dgPad _ _ (List.Perm.swap [83] [82] [])⟩

end MPF

namespace MPF

theorem toNibbles_length : ∀ bs : Bytes, (toNibbles bs).length = 2 * bs.length
  | [] => rfl
  | b :: rest => by
    simp [toNibbles, List.flatMap_cons, byteNibbles] at *
    have := toNibbles_length rest
    simp [toNibbles] at this
    omega

theorem toNibbles_inj : ∀ (bs1 bs2 : Bytes), (∀ x ∈ bs1, x < 256) → (∀ x ∈ bs2, x < 256) →
    toNibbles bs1 = toNibbles bs2 → bs1 = bs2
  | [], [], _, _, _ => rfl
  | [], b :: bs, _, _, h => by simp [toNibbles, byteNibbles] at h
  | a :: as, [], _, _, h => by simp [toNibbles, byteNibbles] at h
  | a :: as, b :: bs, h1, h2, h => by
    simp only [toNibbles, List.flatMap_cons, byteNibbles, List.cons_append, List.nil_append,
      List.cons.injEq] at h
    obtain ⟨hhi, hlo, htail⟩ := h
    have ha : a < 256 := h1 a (List.mem_cons_self a as)
    have hb : b < 256 := h2 b (List.mem_cons_self b bs)
    have hhi2 : a / 16 % 16 = b / 16 % 16 := congrArg Fin.val hhi
    have hlo2 : a % 16 = b % 16 := congrArg Fin.val hlo
    have hab : a = b := by omega
    have : as = bs := toNibbles_inj as bs
      (fun x hx => h1 x (List.mem_cons_of_mem a hx))
      (fun x hx => h2 x (List.mem_cons_of_mem b hx))
      (by simpa [toNibbles] using htail)
    rw [hab, this]

theorem intoKey_inj (dg : Bytes → Bytes) (v1 v2 : Bytes)
    (h1 : ∀ x ∈ dg v1, x < 256) (h2 : ∀ x ∈ dg v2, x < 256)
    (hne : dg v1 ≠ dg v2) : intoKey dg v1 ≠ intoKey dg v2 :=
  fun he => hne (toNibbles_inj (dg v1) (dg v2) h1 h2 he)

theorem lcp_prefix_left : ∀ a b : Path, lcp a b <+: a
  | [], b => by rw [lcp_nil_left]
  | a :: as, [] => by rw [lcp_nil_right]; exact List.nil_prefix
  | a :: as, b :: bs => by
    by_cases h : a = b
    · subst h
      simpa [lcp] using lcp_prefix_left as bs
    · simp [lcp, h, List.nil_prefix]

theorem lcp_drop_head_ne : ∀ a b : Path, a.length = b.length → a ≠ b →
    ∃ x xs y ys, a.drop (lcp a b).length = x :: xs ∧ b.drop (lcp a b).length = y :: ys ∧ x ≠ y
  | [], [], _, hne => absurd rfl hne
  | [], b :: bs, hl, _ => by simp at hl
  | a :: as, [], hl, _ => by simp at hl
  | a :: as, b :: bs, hl, hne => by
    by_cases h : a = b
    · subst h
      have hne' : as ≠ bs := fun he => hne (by rw [he])
      have hl' : as.length = bs.length := by simpa using hl
      obtain ⟨x, xs, y, ys, e1, e2, e3⟩ := lcp_drop_head_ne as bs hl' hne'
      exact ⟨x, xs, y, ys, by simpa [lcp] using e1, by simpa [lcp] using e2, e3⟩
    · exact ⟨a, as, b, bs, by simp [lcp, h], by simp [lcp, h], h⟩

theorem commonPfx_single (k : Path) : commonPfx [k] = k := rfl

theorem commonPfx_pair (a b : Path) : commonPfx [a, b] = lcp a b := rfl

theorem bucket_pair (d x y : Nib) (xs ys : Path) (w1 w2 : Bytes) :
    bucket d [⟨x :: xs, w1⟩, ⟨y :: ys, w2⟩]
      = (if x = d then [⟨xs, w1⟩] else []) ++ (if y = d then [⟨ys, w2⟩] else []) := by
  unfold bucket
  by_cases hx : x = d <;> by_cases hy : y = d <;>
    simp [List.filter_cons, hx, hy]

theorem allSome_map_some {α : Type} (g : α → Tree) :
    ∀ l : List α, allSome (l.map fun a => some (g a)) = some (l.map g)
  | [] => rfl
  | a :: l => by simp [allSome, allSome_map_some g l]

theorem length_filterMap_countP {α β : Type} (f : α → Option β) :
    ∀ l : List α, (l.filterMap f).length = l.countP fun a => (f a).isSome
  | [] => rfl
  | a :: l => by
    cases h : f a <;>
      simp [List.filterMap_cons, h, length_filterMap_countP f l, List.countP_cons]

theorem countP_two_point : ∀ x y : Nib, x ≠ y →
    ((List.finRange 16).countP fun d => decide (d = x) || decide (d = y)) = 2 := by decide

theorem filterMap_flatMap {α β γ : Type} (g : α → List β) (f : β → Option γ) :
    ∀ l : List α, (l.flatMap g).filterMap f = l.flatMap fun a => (g a).filterMap f
  | [] => rfl
  | a :: l => by simp [List.flatMap_cons, List.filterMap_append, filterMap_flatMap g f l]

theorem flatMap_if_none {α : Type} (v : α) :
    ∀ (l : List Nib) (y : Nib), y ∉ l → (l.flatMap fun d => if d = y then [v] else []) = []
  | [], y, _ => rfl
  | a :: l, y, h => by
    have ha : a ≠ y := fun he => h (he ▸ List.mem_cons_self a l)
    have hl : y ∉ l := fun hm => h (List.mem_cons_of_mem a hm)
    simp [List.flatMap_cons, ha, flatMap_if_none v l y hl]

theorem flatMap_if_single {α : Type} (v : α) :
    ∀ (l : List Nib) (y : Nib), y ∈ l → l.Nodup →
      (l.flatMap fun d => if d = y then [v] else []) = [v]
  | a :: l, y, hm, hnd => by
    by_cases hay : a = y
    · subst hay
      have hnl : a ∉ l := (List.nodup_cons.mp hnd).1
      simp [List.flatMap_cons, flatMap_if_none v l a hnl]
    · have hyl : y ∈ l := by
        rcases List.mem_cons.mp hm with h | h
        · exact absurd h.symm hay
        · exact h
      simp [List.flatMap_cons, hay, flatMap_if_single v l y hyl (List.nodup_cons.mp hnd).2]

theorem finRange_map_getD {α : Type} (f : Nib → α) (b : Nib) (dflt : α) :
    ((List.finRange 16).map f).getD b.val dflt = f b := by
  have hb : b.val < ((List.finRange 16).map f).length := by simp [b.isLt]
  rw [List.getD_eq_getElem?_getD, List.getElem?_eq_getElem hb]
  simp

theorem walkSlots_eq (dg : Bytes → Bytes) (cs₀ : List (Option Tree)) (skip : Nat)
    (path' : Path) (b : Nib) :
    ∀ (cs : List (Option Tree)) (n : Nat),
      walkSlots dg cs₀ skip path' b cs n
        = match cs.getD n none with
          | none => .error (.noChild path' (some b))
          | some t => (Tree.walk dg t path'.tail).map fun pf => pf.rewind dg t skip cs₀
  | [], 0 => rfl
  | [], n + 1 => rfl
  | none :: rest, 0 => rfl
  | some t :: rest, 0 => rfl
  | c :: rest, n + 1 => by
    simpa [walkSlots] using walkSlots_eq dg cs₀ skip path' b rest n

end MPF

namespace MPF

theorem loopF_pair (n : Nat) (k1 k2 : Path) (w1 w2 : Bytes)
    (x y : Nib) (xs ys : Path)
    (hd1 : k1.drop (lcp k1 k2).length = x :: xs)
    (hd2 : k2.drop (lcp k1 k2).length = y :: ys)
    (hxy : x ≠ y) :
    loopF (n + 2) [⟨k1, w1⟩, ⟨k2, w2⟩]
      = some (.branch (lcp k1 k2) (pairSlots x y (.leaf xs w1) (.leaf ys w2))) := by
  have hyx : ¬ (y = x) := fun h => hxy h.symm
  have hchild : ∀ d ∈ List.finRange 16,
      loopF (n + 1) (bucket d [⟨x :: xs, w1⟩, ⟨y :: ys, w2⟩])
        = some (if d = x then Tree.leaf xs w1 else if d = y then Tree.leaf ys w2
            else Tree.empty) := by
    intro d _
    rw [bucket_pair]
    by_cases hdx : d = x
    · simp [hdx, hyx, loopF, commonPfx_single]
    · by_cases hdy : d = y
      · have hxd : ¬ (x = d) := fun h => hdx (h.symm)
        simp [hdy, hxy, hxd, hyx, loopF, commonPfx_single]
      · have hxd : ¬ (x = d) := fun h => hdx (h.symm)
        have hyd : ¬ (y = d) := fun h => hdy (h.symm)
        simp [hxd, hyd, hdx, hdy, loopF]
  have hmap : (List.finRange 16).map
        (fun d => loopF (n + 1) (bucket d [⟨x :: xs, w1⟩, ⟨y :: ys, w2⟩]))
      = (List.finRange 16).map
        (fun d => some (if d = x then Tree.leaf xs w1 else if d = y then Tree.leaf ys w2
            else Tree.empty)) :=
    List.map_congr_left hchild
  have hslots : ((List.finRange 16).map
        (fun d => if d = x then Tree.leaf xs w1 else if d = y then Tree.leaf ys w2
            else Tree.empty)).map (fun t => if t.isEmpty then none else some t)
      = pairSlots x y (.leaf xs w1) (.leaf ys w2) := by
    rw [List.map_map]
    exact List.map_congr_left fun d _ => by
      by_cases hdx : d = x
      · simp [hdx, pairSlots, Tree.isEmpty, Tree.size]
      · by_cases hdy : d = y
        · have hyx : ¬ (y = x) := fun h => hdx (hdy.trans h)
          simp [hdx, hdy, hyx, pairSlots, Tree.isEmpty, Tree.size]
        · simp [hdx, hdy, pairSlots, Tree.isEmpty, Tree.size]
  have hcount : ((pairSlots x y (.leaf xs w1) (.leaf ys w2)).filterMap id).length = 2 := by
    unfold pairSlots
    rw [List.filterMap_map]
    rw [length_filterMap_countP]
    rw [List.countP_congr (q := fun d => decide (d = x) || decide (d = y)) ?_]
    · exact countP_two_point x y hxy
    · intro d _
      by_cases hdx : d = x
      · simp [hdx]
      · by_cases hdy : d = y
        · have hyx2 : ¬ (y = x) := fun h => hdx (hdy.trans h)
          simp [hdx, hdy, hyx2]
        · simp [hdx, hdy]
  rw [loopF]
  dsimp only
  simp only [List.map_cons, List.map_nil, commonPfx_pair]
  rw [hd1, hd2]
  simp only [List.all_cons, List.all_nil, List.isEmpty_cons, Bool.not_false, Bool.and_true,
    Bool.and_self, if_true]
  rw [hmap, allSome_map_some]
  dsimp only
  rw [hslots, hcount]
  simp

end MPF

namespace MPF

theorem flatMap_map_comp {α β γ : Type} (f : α → β) (g : β → List γ) :
    ∀ l : List α, (l.map f).flatMap g = l.flatMap fun a => g (f a)
  | [] => rfl
  | a :: l => by simp [List.flatMap_cons, flatMap_map_comp f g l]

theorem flatMap_congr {α β : Type} {f g : α → List β} :
    ∀ {l : List α}, (∀ a ∈ l, f a = g a) → l.flatMap f = l.flatMap g
  | [], _ => rfl
  | a :: l, h => by
    simp only [List.flatMap_cons]
    rw [h a (List.mem_cons_self a l), flatMap_congr fun b hb => h b (List.mem_cons_of_mem a hb)]

theorem walk_pair (dg : Bytes → Bytes) (p : Path) (x y : Nib) (xs ys : Path) (w1 w2 : Bytes)
    (hxy : x ≠ y) (hne : dg w1 ≠ dg w2) :
    Tree.walk dg (.branch p (pairSlots x y (.leaf xs w1) (.leaf ys w2))) (p ++ x :: xs)
      = .ok ⟨w1, [⟨p.length, pairNeighbors x y (dg w2)⟩]⟩ := by
  have hpf : p.isPrefixOf (p ++ x :: xs) = true :=
    List.isPrefixOf_iff_prefix.mpr (List.prefix_append p _)
  have hxx : (xs : Path).isPrefixOf xs = true := List.isPrefixOf_iff_prefix.mpr List.prefix_rfl
  rw [Tree.walk, hpf, if_pos rfl, List.drop_left]
  dsimp only
  rw [walkSlots_eq]
  unfold pairSlots
  rw [finRange_map_getD]
  simp only [eq_self_iff_true, if_true]
  rw [Tree.walk.eq_def]
  dsimp only [List.tail_cons]
  rw [hxx, if_pos rfl]
  dsimp only [Except.map]
  unfold Proof.rewind
  have hnb : neighborsOf dg (Tree.leaf xs w1) ((List.finRange 16).map fun d =>
        if d = x then some (Tree.leaf xs w1) else if d = y then some (Tree.leaf ys w2)
        else none)
      = pairNeighbors x y (dg w2) := by
    unfold neighborsOf
    rw [flatMap_map_comp]
    unfold pairNeighbors
    refine flatMap_congr fun d _ => ?_
    by_cases hdx : d = x
    · simp [hdx]
    · by_cases hdy : d = y
      · have hyx : ¬ (y = x) := fun h => hxy h.symm
        have hne2 : ¬ (dg w2 = dg w1) := fun he => hne he.symm
        simp [hdx, hdy, hyx, hne2, Tree.hash]
      · simp [hdx, hdy]
  rw [hnb]

theorem verify_pair (dg : Bytes → Bytes) (w1 : Bytes) (skip : Nat) (x y : Nib) (hB : Bytes)
    (hxy : x ≠ y) :
    Proof.verify dg ⟨w1, [⟨skip, pairNeighbors x y hB⟩]⟩ false = some hB := by
  have hdef : (pairNeighbors x y hB).filterMap id = [hB] := by
    unfold pairNeighbors
    rw [filterMap_flatMap]
    have hyx : ¬ (y = x) := fun h => hxy h.symm
    have hpt : ∀ d ∈ List.finRange 16,
        ((if d = x then ([] : List (Option Bytes)) else if d = y then [some hB]
            else [none]).filterMap id)
          = (if d = y then [hB] else []) := by
      intro d _
      by_cases hdx : d = x
      · have hdy : ¬ (d = y) := fun h => hxy (hdx.symm.trans h)
        simp [hdx, hdy, hxy]
      · by_cases hdy : d = y
        · simp [hdx, hdy, hyx]
        · simp [hdx, hdy]
    rw [flatMap_congr hpt]
    exact flatMap_if_single hB (List.finRange 16) y (List.mem_finRange y) (List.nodup_finRange 16)
  unfold Proof.verify goVerify verifyStep
  dsimp only
  rw [hdef]
  simp [goVerify]

end MPF

namespace MPF

theorem fromList_single (dg : Bytes → Bytes) (w : Bytes) :
    Tree.fromList dg [w] = some (.leaf (intoKey dg w) w) := rfl

theorem two_element_core (dg : Bytes → Bytes) (w1 w2 : Bytes)
    (h1 : (dg w1).length = 32) (h2 : (dg w2).length = 32)
    (hk : intoKey dg w1 ≠ intoKey dg w2) :
    ∃ t pf, Tree.fromList dg [w1, w2] = some t ∧ Tree.prove dg t w1 = .ok pf ∧
      Proof.verify dg pf false = some (dg w2) := by
  have hne : dg w1 ≠ dg w2 := fun he => hk (by rw [intoKey, intoKey, he])
  have hl1 : (intoKey dg w1).length = 64 := by
    rw [intoKey, toNibbles_length, h1]
  have hl2 : (intoKey dg w2).length = 64 := by
    rw [intoKey, toNibbles_length, h2]
  obtain ⟨x, xs, y, ys, e1, e2, hxy⟩ :=
    lcp_drop_head_ne (intoKey dg w1) (intoKey dg w2) (by rw [hl1, hl2]) hk
  have hw : keysWeight [⟨intoKey dg w1, w1⟩, ⟨intoKey dg w2, w2⟩] = 128 := by
    simp [keysWeight, hl1, hl2]
  have hb : Tree.fromList dg [w1, w2]
      = some (.branch (lcp (intoKey dg w1) (intoKey dg w2))
          (pairSlots x y (.leaf xs w1) (.leaf ys w2))) := by
    unfold Tree.fromList
    dsimp only [List.map_cons, List.map_nil]
    rw [hw]
    exact loopF_pair 127 _ _ w1 w2 x y xs ys e1 e2 hxy
  have hp1 : intoKey dg w1 = lcp (intoKey dg w1) (intoKey dg w2) ++ x :: xs := by
    have happ := List.prefix_iff_eq_append.mp
      (lcp_prefix_left (intoKey dg w1) (intoKey dg w2))
    conv_lhs => rw [← happ]
    rw [e1]
  have hwalk : Tree.prove dg (.branch (lcp (intoKey dg w1) (intoKey dg w2))
        (pairSlots x y (.leaf xs w1) (.leaf ys w2))) w1
      = .ok ⟨w1, [⟨(lcp (intoKey dg w1) (intoKey dg w2)).length,
          pairNeighbors x y (dg w2)⟩]⟩ := by
    unfold Tree.prove
    conv_lhs => arg 3; rw [hp1]
    exact walk_pair dg _ x y xs ys w1 w2 hxy hne
  exact ⟨_, _, hb, hwalk, verify_pair dg w1 _ x y (dg w2) hxy⟩

theorem fromList_pair_swap (dg : Bytes → Bytes) (w1 w2 : Bytes) :
    Tree.fromList dg [w1, w2] = Tree.fromList dg [w2, w1] := by
  have hperm : ([w1, w2].map fun v => KV.mk (intoKey dg v) v).Perm
      ([w2, w1].map fun v => KV.mk (intoKey dg v) v) :=
    List.Perm.swap (KV.mk (intoKey dg w2) w2) (KV.mk (intoKey dg w1) w1) []
  unfold Tree.fromList
  dsimp only
  rw [keysWeight_perm hperm, loopF_perm _ hperm]

/-- C2 (amended). For a two-element set `{v1, v2}` with distinct 32-byte
digests (hence distinct keys), and either element `v`, the proof of `v`
verifies without the element to the root hash of the tree built from the
other element alone: the single step collapses onto the sibling leaf, whose
hash is the digest of the other value — exactly `build({v1,v2} \ {v}).hash`. -/
theorem C2_two_element_duality (dg : Bytes → Bytes) (v1 v2 v : Bytes)
    (h1 : (dg v1).length = 32) (h2 : (dg v2).length = 32)
    (hb1 : ∀ x ∈ dg v1, x < 256) (hb2 : ∀ x ∈ dg v2, x < 256)
    (hne : dg v1 ≠ dg v2) (hv : v = v1 ∨ v = v2) :
    ∃ t pf, Tree.fromList dg [v1, v2] = some t ∧ Tree.prove dg t v = .ok pf ∧
      Proof.verify dg pf false
        = (Tree.fromList dg (if v = v1 then [v2] else [v1])).map (Tree.hash dg) := by
  have hk : intoKey dg v1 ≠ intoKey dg v2 := intoKey_inj dg v1 v2 hb1 hb2 hne
  have hv12 : v1 ≠ v2 := fun he => hk (by rw [he])
  rcases hv with hv | hv
  · subst hv
    obtain ⟨t, pf, ht, hpf, hver⟩ := two_element_core dg v v2 h1 h2 hk
    refine ⟨t, pf, ht, hpf, ?_⟩
    rw [if_pos rfl, fromList_single, hver]
    rfl
  · subst hv
    obtain ⟨t, pf, ht, hpf, hver⟩ := two_element_core dg v v1 h2 h1 (fun he => hk he.symm)
    refine ⟨t, pf, ?_, hpf, ?_⟩
    · rw [fromList_pair_swap]
      exact ht
    · rw [if_neg (fun he => hv12 he.symm), fromList_single, hver]
      rfl

/-- Witness for the amended C2 at a concrete input (pad-to-32 digest,
values 0x52 and 0x53). -/
theorem C2_two_element_duality_witness :
    ((dgPad [82]).length = 32 ∧ (dgPad [83]).length = 32 ∧
        (∀ x ∈ dgPad [82], x < 256) ∧ (∀ x ∈ dgPad [83], x < 256) ∧
        dgPad [82] ≠ dgPad [83] ∧
        (([82] : Bytes) = [82] ∨ ([82] : Bytes) = [83])) ∧
      ∃ t pf, Tree.fromList dgPad [[82], [83]] = some t ∧
        Tree.prove dgPad t [82] = .ok pf ∧
        Proof.verify dgPad pf false
          = (Tree.fromList dgPad (if ([82] : Bytes) = [82] then [[83]] else [[82]])).map
              (Tree.hash dgPad) :=
  ⟨⟨by decide, by decide, by decide, by decide, by decide, Or.inl rfl⟩,
    C2_two_element_duality dgPad [82] [83] [82] (by decide) (by decide) (by decide) (by decide)
      (by decide) (Or.inl rfl)⟩

end MPF

namespace MPF

theorem lcp_prefix_right (a b : Path) : lcp a b <+: b := by
  rw [lcp_comm]
  exact lcp_prefix_left b a

theorem foldr_commonPfxStep_some : ∀ (a : Path) (ks : List Path),
    (a :: ks).foldr commonPfxStep none = some (commonPfx (a :: ks))
  | a, [] => rfl
  | a, b :: ks => by
    have ih := foldr_commonPfxStep_some b ks
    have h1 : (a :: b :: ks).foldr commonPfxStep none
        = commonPfxStep a (some (commonPfx (b :: ks))) := by
      rw [List.foldr_cons, ih]
    have h2 : commonPfx (a :: b :: ks) = lcp a (commonPfx (b :: ks)) := by
      unfold commonPfx
      rw [h1]
      rfl
    rw [h1, h2]
    rfl

theorem commonPfx_cons_cons (a b : Path) (ks : List Path) :
    commonPfx (a :: b :: ks) = lcp a (commonPfx (b :: ks)) := by
  unfold commonPfx
  rw [List.foldr_cons, foldr_commonPfxStep_some b ks]
  rfl

theorem commonPfx_prefix_mem : ∀ (keys : List Path) (k : Path), k ∈ keys → commonPfx keys <+: k
  | [k0], k, hm => by
    have : k = k0 := by simpa using hm
    subst this
    exact List.prefix_rfl
  | k0 :: k1 :: ks, k, hm => by
    rw [commonPfx_cons_cons]
    rcases List.mem_cons.mp hm with h | h
    · subst h
      exact lcp_prefix_left _ _
    · exact (lcp_prefix_right k0 _).trans (commonPfx_prefix_mem (k1 :: ks) k h)

theorem allSome_eq_map_some : ∀ {l : List (Option Tree)} {ts : List Tree},
    allSome l = some ts → l = ts.map some
  | [], ts, h => by
    cases h
    rfl
  | none :: l, ts, h => Option.noConfusion h
  | some t :: l, ts, h => by
    unfold allSome at h
    cases hrest : allSome l with
    | none => rw [hrest] at h; exact Option.noConfusion h
    | some ts' =>
      rw [hrest] at h
      have h2 : t :: ts' = ts := by
        simpa [Option.map] using h
      subst h2
      simp [allSome_eq_map_some hrest]

/-- A key of the working set is recovered along any successful walk: if the
tree built from `kvs` walks path `path` to a proof, some stored key is a
prefix of `path`. -/
theorem loopF_walk_key (dg : Bytes → Bytes) :
    ∀ (fuel : Nat) (kvs : List KV) (t : Tree) (path : Path) (pf : Proof),
      loopF fuel kvs = some t → Tree.walk dg t path = .ok pf →
      ∃ kv ∈ kvs, kv.key <+: path
  | 0, kvs, t, path, pf, hb, hw => Option.noConfusion hb
  | fuel + 1, [], t, path, pf, hb, hw => by
    rw [loopF] at hb
    cases hb
    rw [Tree.walk] at hw
    cases hw
  | fuel + 1, [kv], t, path, pf, hb, hw => by
    rw [loopF] at hb
    cases hb
    rw [Tree.walk] at hw
    by_cases hp : (commonPfx [kv.key]).isPrefixOf path
    · rw [commonPfx_single] at hp
      exact ⟨kv, List.mem_singleton.mpr rfl, List.isPrefixOf_iff_prefix.mp hp⟩
    · rw [commonPfx_single] at hw hp
      rw [if_neg hp] at hw
      cases hw
  | fuel + 1, kv0 :: kv1 :: krest, t, path, pf, hb, hw => by
    rw [loopF] at hb
    dsimp only at hb
    set p := commonPfx ((kv0 :: kv1 :: krest).map KV.key) with hpdef
    set stripped := (kv0 :: kv1 :: krest).map
      (fun kv => KV.mk (kv.key.drop p.length) kv.value) with hsdef
    by_cases hall : stripped.all (fun kv => !kv.key.isEmpty)
    · rw [if_pos hall] at hb
      cases hts : allSome ((List.finRange 16).map fun d => loopF fuel (bucket d stripped)) with
      | none => rw [hts] at hb; cases hb
      | some ts =>
        rw [hts] at hb
        dsimp only at hb
        by_cases hc : 2 ≤ ((ts.map fun t => if t.isEmpty then none
            else some t).filterMap id).length
        · rw [if_pos hc] at hb
          cases hb
          rw [Tree.walk] at hw
          by_cases hp2 : p.isPrefixOf path
          · rw [hp2] at hw
            rw [if_pos rfl] at hw
            cases hdrop : path.drop p.length with
            | nil => rw [hdrop] at hw; cases hw
            | cons b rest =>
              rw [hdrop] at hw
              dsimp only at hw
              rw [walkSlots_eq] at hw
              cases hslot : (ts.map fun t => if t.isEmpty then none
                  else some t).getD b.val none with
              | none => rw [hslot] at hw; cases hw
              | some child =>
                rw [hslot] at hw
                dsimp only [List.tail_cons] at hw
                cases hw2 : Tree.walk dg child rest with
                | error e =>
                  rw [hw2] at hw
                  dsimp only [Except.map] at hw
                  cases hw
                | ok pf' =>
                  rw [hw2] at hw
                  have hlmap := allSome_eq_map_some hts
                  have hts_len : ts.length = 16 := by
                    have := congrArg List.length hlmap
                    simpa using this.symm
                  have hb16 : b.val < 16 := b.isLt
                  have hts_b : b.val < ts.length := by rw [hts_len]; exact hb16
                  have hslot2 : loopF fuel (bucket b stripped) = some child := by
                    have hA : ((List.finRange 16).map fun d =>
                        loopF fuel (bucket d stripped)).getD b.val none
                          = loopF fuel (bucket b stripped) :=
                      finRange_map_getD _ b none
                    rw [hlmap] at hA
                    have hB : (ts.map some).getD b.val none = some ts[b.val] := by
                      rw [List.getD_eq_getElem?_getD, List.getElem?_map,
                        List.getElem?_eq_getElem hts_b]
                      rfl
                    rw [hB] at hA
                    have hgd : (ts.map fun t => if t.isEmpty then none
                        else some t).getD b.val none
                          = if ts[b.val].isEmpty then none else some ts[b.val] := by
                      rw [List.getD_eq_getElem?_getD, List.getElem?_map,
                        List.getElem?_eq_getElem hts_b]
                      simp
                    rw [hgd] at hslot
                    by_cases he : ts[b.val].isEmpty
                    · rw [if_pos he] at hslot; cases hslot
                    · rw [if_neg he] at hslot
                      cases hslot
                      exact hA.symm
                  obtain ⟨kv', hmem', hpre'⟩ :=
                    loopF_walk_key dg fuel (bucket b stripped) child rest pf' hslot2 hw2
                  obtain ⟨kv2, hkv2, hkey2⟩ : ∃ kv2 ∈ stripped,
                      kv2.key = b :: kv'.key := by
                    unfold bucket at hmem'
                    obtain ⟨kv2, hkv2f, hkv2e⟩ := List.mem_map.mp hmem'
                    have hkv2m := List.mem_of_mem_filter hkv2f
                    have hkv2h : kv2.key.head? = some b := by
                      have := List.of_mem_filter hkv2f
                      simpa using this
                    refine ⟨kv2, hkv2m, ?_⟩
                    cases hk2 : kv2.key with
                    | nil => rw [hk2] at hkv2h; simp at hkv2h
                    | cons hh tt =>
                      rw [hk2] at hkv2h
                      simp at hkv2h
                      subst hkv2h
                      have : kv'.key = tt := by
                        rw [← hkv2e]
                        simp [hk2]
                      rw [this]
                  obtain ⟨kv, hkv, hkveq⟩ := List.mem_map.mp hkv2
                  refine ⟨kv, hkv, ?_⟩
                  have hkdrop : kv.key.drop p.length = b :: kv'.key := by
                    rw [← hkey2, ← hkveq]
                  have hkpre : p <+: kv.key :=
                    commonPfx_prefix_mem _ kv.key (List.mem_map_of_mem KV.key hkv)
                  have hkeq : kv.key = p ++ b :: kv'.key := by
                    have happ := List.prefix_iff_eq_append.mp hkpre
                    conv_lhs => rw [← happ]
                    rw [hkdrop]
                  have hpatheq : path = p ++ b :: rest := by
                    have happ := List.prefix_iff_eq_append.mp
                      ( List.isPrefixOf_iff_prefix.mp hp2)
                    conv_lhs => rw [← happ]
                    rw [hdrop]
                  rw [hkeq, hpatheq]
                  obtain ⟨s, hs⟩ := hpre'
                  exact ⟨s, by rw [← hs]; simp⟩
          · rw [if_neg hp2] at hw
            cases hw
        · rw [if_neg hc] at hb
          cases hb
    · rw [if_neg hall] at hb
      cases hb

end MPF

namespace MPF

/-- C8. Proving a value whose key differs from every stored key fails with a
recoverable, structured error. The error type `WalkError` has exactly the
three shapes the claim lists — walking an empty tree, a non-matching prefix,
and an absent branch slot — and each constructor carries the remaining path
that the JavaScript message interpolates. Trees are immutable values of the
model, so `prove` cannot change the tree. -/
theorem C8_prove_absent_fails (dg : Bytes → Bytes) (vs : List Bytes) (v : Bytes) (t : Tree)
    (hb : Tree.fromList dg vs = some t)
    (hlen : ∀ w ∈ vs, (dg w).length = 32) (hlv : (dg v).length = 32)
    (hbytes : ∀ w ∈ vs, ∀ x ∈ dg w, x < 256) (hbv : ∀ x ∈ dg v, x < 256)
    (hni : ∀ w ∈ vs, dg w ≠ dg v) :
    ∃ e, Tree.prove dg t v = .error e := by
  cases hwalk : Tree.prove dg t v with
  | error e => exact ⟨e, rfl⟩
  | ok pf =>
    exfalso
    unfold Tree.prove at hwalk
    unfold Tree.fromList at hb
    obtain ⟨kv, hmem, hpre⟩ :=
      loopF_walk_key dg _ (vs.map fun w => KV.mk (intoKey dg w) w) t (intoKey dg v) pf hb hwalk
    obtain ⟨w, hw, hkv⟩ := List.mem_map.mp hmem
    have hkey : intoKey dg w <+: intoKey dg v := by
      rw [← hkv] at hpre
      exact hpre
    have hlw : (intoKey dg w).length = 64 := by
      rw [intoKey, toNibbles_length, hlen w hw]
    have hlv' : (intoKey dg v).length = 64 := by
      rw [intoKey, toNibbles_length, hlv]
    have hkeq : intoKey dg w = intoKey dg v := hkey.eq_of_length (by rw [hlw, hlv'])
    exact hni w hw (toNibbles_inj (dg w) (dg v) (hbytes w hw) hbv hkeq)

/-- Witness for C8 at a concrete input: the two-element tree over
`{0x52, 0x53}` (pad-to-32 digest) rejects a proof request for `0x54`. -/
theorem C8_prove_absent_fails_witness :
    (Tree.fromList dgPad [[82], [83]]
        = some ((Tree.fromList dgPad [[82], [83]]).getD .empty) ∧
      (∀ w ∈ [[82], [83]], (dgPad w).length = 32) ∧ (dgPad [84]).length = 32 ∧
      (∀ w ∈ [[82], [83]], ∀ x ∈ dgPad w, x < 256) ∧ (∀ x ∈ dgPad [84], x < 256) ∧
      (∀ w ∈ [[82], [83]], dgPad w ≠ dgPad [84])) ∧
    ∃ e, Tree.prove dgPad ((Tree.fromList dgPad [[82], [83]]).getD .empty) [84] = .error e :=
  ⟨⟨rfl, by decide, by decide, by decide, by decide, by decide⟩,
    C8_prove_absent_fails dgPad [[82], [83]] [84]
      ((Tree.fromList dgPad [[82], [83]]).getD .empty) rfl (by decide) (by decide) (by decide)
      (by decide) (by decide)⟩

end MPF

namespace MPF

theorem shape16Slots_mem : ∀ {cs : List (Option Tree)} {t : Tree},
    shape16Slots cs = true → some t ∈ cs → shape16 t = true
  | c :: rest, t, hs, hm => by
    rcases List.mem_cons.mp hm with h | h
    · subst h
      rw [shape16Slots, Bool.and_eq_true] at hs
      exact hs.1
    · match c with
      | none => exact shape16Slots_mem (by rw [shape16Slots] at hs; exact hs) h
      | some t' =>
        rw [shape16Slots, Bool.and_eq_true] at hs
        exact shape16Slots_mem hs.2 h

theorem hashDistinctSlots_mem (dg : Bytes → Bytes) : ∀ {cs : List (Option Tree)} {t : Tree},
    hashDistinctSlots dg cs = true → some t ∈ cs → hashDistinct dg t = true
  | c :: rest, t, hs, hm => by
    rcases List.mem_cons.mp hm with h | h
    · subst h
      rw [hashDistinctSlots, Bool.and_eq_true] at hs
      exact hs.1
    · match c with
      | none => exact hashDistinctSlots_mem dg (by rw [hashDistinctSlots] at hs; exact hs) h
      | some t' =>
        rw [hashDistinctSlots, Bool.and_eq_true] at hs
        exact hashDistinctSlots_mem dg hs.2 h

theorem shape16Slots_of_forall : ∀ {cs : List (Option Tree)},
    (∀ t : Tree, some t ∈ cs → shape16 t = true) → shape16Slots cs = true
  | [], _ => rfl
  | none :: rest, h => by
    rw [shape16Slots]
    exact shape16Slots_of_forall fun t ht => h t (List.mem_cons_of_mem none ht)
  | some t :: rest, h => by
    rw [shape16Slots, Bool.and_eq_true]
    exact ⟨h t (List.mem_cons_self _ _),
      shape16Slots_of_forall fun u hu => h u (List.mem_cons_of_mem (some t) hu)⟩

/-- Every tree built by the recursive builder has 16-slot branches. -/
theorem loopF_shape16 : ∀ (fuel : Nat) (kvs : List KV) (t : Tree),
    loopF fuel kvs = some t → shape16 t = true
  | 0, kvs, t, hb => Option.noConfusion hb
  | fuel + 1, [], t, hb => by
    rw [loopF] at hb
    cases hb
    rfl
  | fuel + 1, [kv], t, hb => by
    rw [loopF] at hb
    cases hb
    rfl
  | fuel + 1, kv0 :: kv1 :: krest, t, hb => by
    rw [loopF] at hb
    dsimp only at hb
    set p := commonPfx ((kv0 :: kv1 :: krest).map KV.key) with hpdef
    set stripped := (kv0 :: kv1 :: krest).map
      (fun kv => KV.mk (kv.key.drop p.length) kv.value) with hsdef
    by_cases hall : stripped.all (fun kv => !kv.key.isEmpty)
    · rw [if_pos hall] at hb
      cases hts : allSome ((List.finRange 16).map fun d => loopF fuel (bucket d stripped)) with
      | none => rw [hts] at hb; cases hb
      | some ts =>
        rw [hts] at hb
        dsimp only at hb
        by_cases hc : 2 ≤ ((ts.map fun t => if t.isEmpty then none
            else some t).filterMap id).length
        · rw [if_pos hc] at hb
          cases hb
          rw [shape16, Bool.and_eq_true]
          have hlmap := allSome_eq_map_some hts
          have hts_len : ts.length = 16 := by
            have := congrArg List.length hlmap
            simpa using this.symm
          constructor
          · simp [hts_len]
          · refine shape16Slots_of_forall fun u hu => ?_
            obtain ⟨u2, hu2, he⟩ := List.mem_map.mp hu
            by_cases hemp : u2.isEmpty
            · rw [if_pos hemp] at he
              cases he
            · rw [if_neg hemp] at he
              have heq : u2 = u := Option.some.inj he
              subst heq
              have hm2 : some u2 ∈ ts.map some := List.mem_map_of_mem some hu2
              rw [← hlmap] at hm2
              obtain ⟨d, _, hd⟩ := List.mem_map.mp hm2
              exact loopF_shape16 fuel (bucket d stripped) u2 hd
        · rw [if_neg hc] at hb
          cases hb
    · rw [if_neg hall] at hb
      cases hb

end MPF

namespace MPF

theorem nodup_present_pairwise (dg : Bytes → Bytes) :
    ∀ (cs : List (Option Tree)),
      ((cs.filterMap id).map (Tree.hash dg)).Nodup →
      ∀ (i j : Nat) (t u : Tree), cs[i]? = some (some t) → cs[j]? = some (some u) →
        i ≠ j → Tree.hash dg t ≠ Tree.hash dg u
  | [], _, i, j, t, u, hi, hj, hij => by simp at hi
  | c :: rest, hnd, 0, 0, t, u, hi, hj, hij => absurd rfl hij
  | c :: rest, hnd, 0, k + 1, t, u, hi, hj, hij => by
    have hc : c = some t := by simpa using hi
    subst hc
    have hmem : some u ∈ rest := List.getElem?_mem (by simpa using hj)
    have hmem2 : Tree.hash dg u ∈ (rest.filterMap id).map (Tree.hash dg) :=
      List.mem_map_of_mem _ (List.mem_filterMap.mpr ⟨some u, hmem, rfl⟩)
    rw [List.filterMap_cons_some (show id (some t) = some t from rfl), List.map_cons,
      List.nodup_cons] at hnd
    exact fun he => hnd.1 (he ▸ hmem2)
  | c :: rest, hnd, k + 1, 0, t, u, hi, hj, hij => by
    have hc : c = some u := by simpa using hj
    subst hc
    have hmem : some t ∈ rest := List.getElem?_mem (by simpa using hi)
    have hmem2 : Tree.hash dg t ∈ (rest.filterMap id).map (Tree.hash dg) :=
      List.mem_map_of_mem _ (List.mem_filterMap.mpr ⟨some t, hmem, rfl⟩)
    rw [List.filterMap_cons_some (show id (some u) = some u from rfl), List.map_cons,
      List.nodup_cons] at hnd
    exact fun he => hnd.1 (he.symm ▸ hmem2)
  | c :: rest, hnd, k + 1, l + 1, t, u, hi, hj, hij => by
    have hndr : ((rest.filterMap id).map (Tree.hash dg)).Nodup := by
      match c with
      | none =>
        rw [List.filterMap_cons_none (show id (none : Option Tree) = none from rfl)] at hnd
        exact hnd
      | some t0 =>
        rw [List.filterMap_cons_some (show id (some t0) = some t0 from rfl), List.map_cons,
          List.nodup_cons] at hnd
        exact hnd.2
    exact nodup_present_pairwise dg rest hndr k l t u (by simpa using hi) (by simpa using hj)
      (fun he => hij (by rw [he]))

theorem neighborsOf_map_of_ne (dg : Bytes → Bytes) (target : Tree) :
    ∀ (cs : List (Option Tree)),
      (∀ t ∈ cs.filterMap id, Tree.hash dg t ≠ Tree.hash dg target) →
      neighborsOf dg target cs = cs.map (Option.map (Tree.hash dg))
  | [], _ => rfl
  | none :: rest, h => by
    have ih := neighborsOf_map_of_ne dg target rest (by
      intro t ht
      exact h t (by
        rw [List.filterMap_cons_none (show id (none : Option Tree) = none from rfl)]
        exact ht))
    unfold neighborsOf at ih ⊢
    simp only [List.flatMap_cons, List.map_cons, ih]
    rfl
  | some t0 :: rest, h => by
    have ih := neighborsOf_map_of_ne dg target rest (by
      intro t ht
      exact h t (by
        rw [List.filterMap_cons_some (show id (some t0) = some t0 from rfl)]
        exact List.mem_cons_of_mem t0 ht))
    have hne : Tree.hash dg t0 ≠ Tree.hash dg target :=
      h t0 (by
        rw [List.filterMap_cons_some (show id (some t0) = some t0 from rfl)]
        exact List.mem_cons_self _ _)
    unfold neighborsOf at ih ⊢
    simp only [List.flatMap_cons, List.map_cons, ih, if_neg hne]
    rfl

theorem neighborsOf_eraseIdx (dg : Bytes → Bytes) (target : Tree) :
    ∀ (cs : List (Option Tree)) (i : Nat),
      cs[i]? = some (some target) →
      (∀ (j : Nat) (u : Tree), cs[j]? = some (some u) → j ≠ i →
        Tree.hash dg u ≠ Tree.hash dg target) →
      neighborsOf dg target cs = (cs.eraseIdx i).map (Option.map (Tree.hash dg))
  | [], i, hi, _ => by simp at hi
  | c :: rest, 0, hi, hj => by
    have hc : c = some target := by simpa using hi
    subst hc
    have hrest : ∀ t ∈ rest.filterMap id, Tree.hash dg t ≠ Tree.hash dg target := by
      intro t ht
      obtain ⟨a, ha, hat⟩ := List.mem_filterMap.mp ht
      obtain ⟨k, hk⟩ := List.getElem?_of_mem ha
      cases a with
      | none => simp at hat
      | some t2 =>
        have : t2 = t := by simpa using hat
        subst this
        exact hj (k + 1) t2 (by simpa using hk) (by omega)
    unfold neighborsOf
    simp only [List.flatMap_cons, if_pos rfl, List.eraseIdx_cons_zero, List.nil_append]
    exact neighborsOf_map_of_ne dg target rest hrest
  | c :: rest, k + 1, hi, hj => by
    have ih := neighborsOf_eraseIdx dg target rest k (by simpa using hi) (by
      intro j u hju hjk
      exact hj (j + 1) u (by simpa using hju) (by omega))
    match c with
    | none =>
      unfold neighborsOf at ih ⊢
      simp only [List.flatMap_cons, List.eraseIdx_cons_succ, List.map_cons, ih]
      rfl
    | some u0 =>
      have hne : Tree.hash dg u0 ≠ Tree.hash dg target :=
        hj 0 u0 (by simp) (by omega)
      unfold neighborsOf at ih ⊢
      simp only [List.flatMap_cons, List.eraseIdx_cons_succ, List.map_cons, ih, if_neg hne]
      rfl

end MPF

namespace MPF

theorem walk_steps_shape_aux (dg : Bytes → Bytes) :
    ∀ (n : Nat) (path : Path) (t : Tree) (pf : Proof),
      path.length ≤ n → shape16 t = true → hashDistinct dg t = true →
      Tree.walk dg t path = .ok pf →
      ∀ st ∈ pf.steps, ∃ (cs : List (Option Tree)) (b : Nib) (child : Tree),
        cs.length = 16 ∧ cs[b.val]? = some (some child) ∧
        st.neighbors = (cs.eraseIdx b.val).map (Option.map (Tree.hash dg)) ∧
        st.neighbors.length = 15
  | _, path, .empty, pf, _, _, _, hw => by
    rw [Tree.walk] at hw
    exact Except.noConfusion hw
  | _, path, .leaf p v, pf, _, _, _, hw => by
    rw [Tree.walk] at hw
    by_cases hp : p.isPrefixOf path = true
    · rw [if_pos hp] at hw
      cases hw
      intro st hst
      exact absurd hst (List.not_mem_nil st)
    · rw [if_neg hp] at hw
      exact Except.noConfusion hw
  | 0, path, .branch p cs, pf, hn, _, _, hw => by
    have hpath : path = [] := List.length_eq_zero.mp (Nat.le_zero.mp hn)
    subst hpath
    rw [Tree.walk] at hw
    by_cases hp2 : p.isPrefixOf ([] : Path) = true
    · rw [if_pos hp2, List.drop_nil] at hw
      exact Except.noConfusion hw
    · rw [if_neg hp2] at hw
      exact Except.noConfusion hw
  | m + 1, path, .branch p cs, pf, hn, hs, hd, hw => by
    rw [Tree.walk] at hw
    by_cases hp2 : p.isPrefixOf path = true
    · rw [if_pos hp2] at hw
      cases hdrop : path.drop p.length with
      | nil =>
        rw [hdrop] at hw
        exact Except.noConfusion hw
      | cons b rest =>
        rw [hdrop] at hw
        dsimp only at hw
        rw [walkSlots_eq] at hw
        cases hslot : cs.getD b.val none with
        | none =>
          rw [hslot] at hw
          exact Except.noConfusion hw
        | some child =>
          rw [hslot] at hw
          dsimp only [List.tail_cons] at hw
          cases hw2 : Tree.walk dg child rest with
          | error e =>
            rw [hw2] at hw
            dsimp only [Except.map] at hw
            exact Except.noConfusion hw
          | ok pf2 =>
            rw [hw2] at hw
            dsimp only [Except.map] at hw
            cases hw
            rw [shape16, Bool.and_eq_true] at hs
            have hlen16 : cs.length = 16 := by simpa using hs.1
            rw [hashDistinct, Bool.and_eq_true] at hd
            have hnd : ((cs.filterMap id).map (Tree.hash dg)).Nodup :=
              of_decide_eq_true hd.1
            have hb16 : b.val < cs.length := by rw [hlen16]; exact b.isLt
            have hcsb : cs[b.val]? = some (some child) := by
              rw [List.getD_eq_getElem?_getD, List.getElem?_eq_getElem hb16] at hslot
              simp only [Option.getD_some] at hslot
              rw [List.getElem?_eq_getElem hb16, hslot]
            have hpair : ∀ (j : Nat) (u : Tree), cs[j]? = some (some u) → j ≠ b.val →
                Tree.hash dg u ≠ Tree.hash dg child :=
              fun j u hju hj => nodup_present_pairwise dg cs hnd j b.val u child hju hcsb hj
            have hnb : neighborsOf dg child cs
                = (cs.eraseIdx b.val).map (Option.map (Tree.hash dg)) :=
              neighborsOf_eraseIdx dg child cs b.val hcsb hpair
            have hrl : rest.length < path.length := by
              have h1 : (path.drop p.length).length = path.length - p.length :=
                List.length_drop _ _
              rw [hdrop] at h1
              simp only [List.length_cons] at h1
              omega
            intro st hst
            unfold Proof.rewind at hst
            dsimp only at hst
            rcases List.mem_cons.mp hst with hst | hst
            · subst hst
              refine ⟨cs, b, child, hlen16, hcsb, hnb, ?_⟩
              show (neighborsOf dg child cs).length = 15
              rw [hnb, List.length_map, List.length_eraseIdx_of_lt hb16, hlen16]
            · have hsc : shape16 child = true :=
                shape16Slots_mem hs.2 (List.getElem?_mem hcsb)
              have hdc : hashDistinct dg child = true :=
                hashDistinctSlots_mem dg hd.2 (List.getElem?_mem hcsb)
              exact walk_steps_shape_aux dg m rest child pf2 (by omega) hsc hdc hw2 st hst
    · rw [if_neg hp2] at hw
      exact Except.noConfusion hw

end MPF

namespace MPF

theorem insertIdx_eq_take_cons_drop {α : Type} (a : α) :
    ∀ (i : Nat) (l : List α), i ≤ l.length →
      List.insertIdx i a l = l.take i ++ a :: l.drop i
  | 0, l, _ => by simp [List.insertIdx_zero]
  | i + 1, [], h => by simp at h
  | i + 1, x :: xs, h => by
    rw [List.insertIdx_succ_cons, insertIdx_eq_take_cons_drop a i xs (by simpa using h)]
    simp

/-- C10. For a tree produced by `Tree.fromList` in which distinct present
children of a branch never share a hash, every step of a proof produced by
`prove` has a neighbors list of exactly 15 entries: the 16 child slots of the
branch minus the chosen child's slot, in ascending slot order, with absent
slots recorded as `none` placeholders (`eraseIdx` of the slot vector mapped
through the node hash); and `verify`'s reconstruction
`neighbors.slice(0, nibble) ++ [acc] ++ neighbors.slice(nibble)` is exactly
insertion of the accumulator at index `nibble`, giving back 16 slots. -/
theorem C10_step_shape (dg : Bytes → Bytes) (vs : List Bytes) (v : Bytes) (t : Tree)
    (pf : Proof) (hb : Tree.fromList dg vs = some t) (hd : hashDistinct dg t = true)
    (hw : Tree.prove dg t v = .ok pf) :
    ∀ st ∈ pf.steps,
      st.neighbors.length = 15 ∧
      (∃ (cs : List (Option Tree)) (b : Nib) (child : Tree),
        cs.length = 16 ∧ cs[b.val]? = some (some child) ∧
        st.neighbors = (cs.eraseIdx b.val).map (Option.map (Tree.hash dg))) ∧
      ∀ (nb : Nib) (h : Bytes),
        spliceChildren st.neighbors (some nb) (some h)
            = List.insertIdx nb.val (some h) st.neighbors ∧
          (spliceChildren st.neighbors (some nb) (some h)).length = 16 := by
  have hshape : shape16 t = true := loopF_shape16 _ _ t hb
  intro st hst
  obtain ⟨cs, b, child, h16, hcsb, hnbs, h15⟩ :=
    walk_steps_shape_aux dg (intoKey dg v).length (intoKey dg v) t pf le_rfl hshape hd hw st hst
  refine ⟨h15, ⟨cs, b, child, h16, hcsb, hnbs⟩, fun nb h => ?_⟩
  have hnb15 : nb.val ≤ st.neighbors.length := by rw [h15]; omega
  have hsp : spliceChildren st.neighbors (some nb) (some h)
      = st.neighbors.take nb.val ++ some h :: st.neighbors.drop nb.val := by
    simp [spliceChildren]
  constructor
  · rw [insertIdx_eq_take_cons_drop (some h) nb.val st.neighbors hnb15, hsp]
  · rw [hsp, List.length_append, List.length_cons, List.length_take, List.length_drop, h15]
    have h2 : nb.val ≤ 15 := by omega
    omega

/-- Witness for C10 at a concrete input: the proof of `0x52` in the
two-element tree over `{0x52, 0x53}` (pad-to-32 digest). -/
theorem C10_step_shape_witness :
    (Tree.fromList dgPad [[82], [83]]
        = some ((Tree.fromList dgPad [[82], [83]]).getD .empty) ∧
      hashDistinct dgPad ((Tree.fromList dgPad [[82], [83]]).getD .empty) = true ∧
      Tree.prove dgPad ((Tree.fromList dgPad [[82], [83]]).getD .empty) [82]
        = .ok ((Tree.prove dgPad ((Tree.fromList dgPad [[82], [83]]).getD .empty) [82]).toOption.getD
            ⟨[82], []⟩)) ∧
    ∀ st ∈ ((Tree.prove dgPad ((Tree.fromList dgPad [[82], [83]]).getD .empty) [82]).toOption.getD
        ⟨[82], []⟩).steps,
      st.neighbors.length = 15 ∧
      (∃ (cs : List (Option Tree)) (b : Nib) (child : Tree),
        cs.length = 16 ∧ cs[b.val]? = some (some child) ∧
        st.neighbors = (cs.eraseIdx b.val).map (Option.map (Tree.hash dgPad))) ∧
      ∀ (nb : Nib) (h : Bytes),
        spliceChildren st.neighbors (some nb) (some h)
            = List.insertIdx nb.val (some h) st.neighbors ∧
          (spliceChildren st.neighbors (some nb) (some h)).length = 16 :=
  ⟨⟨rfl, by decide, rfl⟩,
    C10_step_shape dgPad [[82], [83]] [82] ((Tree.fromList dgPad [[82], [83]]).getD .empty)
      ((Tree.prove dgPad ((Tree.fromList dgPad [[82], [83]]).getD .empty) [82]).toOption.getD
        ⟨[82], []⟩) rfl (by decide) rfl⟩

end MPF

namespace MPF

theorem lookupGo_length : ∀ (c : Nat) (ns : List (Option Bytes)),
    (lookupGo c ns).length = ns.length
  | _, [] => rfl
  | c, x :: rest => by simp [lookupGo, lookupGo_length _ rest]

theorem lookupGo_getElem? : ∀ (c : Nat) (ns : List (Option Bytes)) (i : Nat),
    (lookupGo c ns)[i]?
      = if i < ns.length then some (c + (ns.take i).countP Option.isSome) else none
  | c, [], i => by simp [lookupGo]
  | c, x :: rest, 0 => by simp [lookupGo]
  | c, x :: rest, i + 1 => by
    have ih := lookupGo_getElem? (if x.isSome then c + 1 else c) rest i
    simp only [lookupGo, List.getElem?_cons_succ, ih, List.take_succ_cons, List.countP_cons,
      List.length_cons]
    by_cases hlt : i < rest.length
    · have h2 : i + 1 < rest.length + 1 := by omega
      rw [if_pos hlt, if_pos h2]
      cases hx : x.isSome
      · simp [hx]
      · simp [hx]
        omega
    · have h2 : ¬ (i + 1 < rest.length + 1) := by omega
      rw [if_neg hlt, if_neg h2]

/-- C7 (amended). Each step serialised by `serialise` carries a `lookup`
byte string with exactly one byte per branch slot other than the chosen
child's slot — 15 bytes, not 16 — where byte `i` is the running count of
present neighbors among the first `i` entries, i.e. the index into the
`neighbors` blob at which the slot's hash would sit. (Stated for proofs on
`fromList` trees whose distinct children never share a hash, which makes the
neighbor list exactly 15 entries.) -/
theorem C7_lookup_shape (dg : Bytes → Bytes) (vs : List Bytes) (v : Bytes) (t : Tree)
    (pf : Proof) (hb : Tree.fromList dg vs = some t) (hd : hashDistinct dg t = true)
    (hw : Tree.prove dg t v = .ok pf) :
    ∀ s ∈ pf.serialise, ∃ st ∈ pf.steps,
      s.lookup = lookupGo 0 st.neighbors ∧
      s.lookup.length = 15 ∧
      ∀ i : Nat, s.lookup[i]?
        = if i < 15 then some ((st.neighbors.take i).countP Option.isSome) else none := by
  have hshape : shape16 t = true := loopF_shape16 _ _ t hb
  intro s hs
  obtain ⟨st, hst, hse⟩ := List.mem_map.mp hs
  obtain ⟨cs, b, child, h16, hcsb, hnbs, h15⟩ :=
    walk_steps_shape_aux dg (intoKey dg v).length (intoKey dg v) t pf le_rfl hshape hd hw st hst
  subst hse
  refine ⟨st, hst, rfl, ?_, ?_⟩
  · show (lookupGo 0 st.neighbors).length = 15
    rw [lookupGo_length, h15]
  · intro i
    show (lookupGo 0 st.neighbors)[i]? = _
    rw [lookupGo_getElem?, h15]
    by_cases hlt : i < 15
    · rw [if_pos hlt, if_pos hlt]
      simp
    · rw [if_neg hlt, if_neg hlt]

/-- Witness for the amended C7 at a concrete input: the serialised proof of
`0x52` in the two-element tree over `{0x52, 0x53}` (pad-to-32 digest). -/
theorem C7_lookup_shape_witness :
    (Tree.fromList dgPad [[82], [83]]
        = some ((Tree.fromList dgPad [[82], [83]]).getD .empty) ∧
      hashDistinct dgPad ((Tree.fromList dgPad [[82], [83]]).getD .empty) = true ∧
      Tree.prove dgPad ((Tree.fromList dgPad [[82], [83]]).getD .empty) [82]
        = .ok ((Tree.prove dgPad ((Tree.fromList dgPad [[82], [83]]).getD .empty) [82]).toOption.getD
            ⟨[82], []⟩)) ∧
    ∀ s ∈ ((Tree.prove dgPad ((Tree.fromList dgPad [[82], [83]]).getD .empty) [82]).toOption.getD
        ⟨[82], []⟩).serialise,
      ∃ st ∈ ((Tree.prove dgPad ((Tree.fromList dgPad [[82], [83]]).getD .empty) [82]).toOption.getD
          ⟨[82], []⟩).steps,
        s.lookup = lookupGo 0 st.neighbors ∧
        s.lookup.length = 15 ∧
        ∀ i : Nat, s.lookup[i]?
          = if i < 15 then some ((st.neighbors.take i).countP Option.isSome) else none :=
  ⟨⟨rfl, by decide, rfl⟩,
    C7_lookup_shape dgPad [[82], [83]] [82] ((Tree.fromList dgPad [[82], [83]]).getD .empty)
      ((Tree.prove dgPad ((Tree.fromList dgPad [[82], [83]]).getD .empty) [82]).toOption.getD
        ⟨[82], []⟩) rfl (by decide) rfl⟩

end MPF

namespace MPF

theorem keysWeight_cons (kv : KV) (l : List KV) :
    keysWeight (kv :: l) = kv.key.length + keysWeight l := by
  simp [keysWeight]

theorem bucket_weight_le (d : Nib) : ∀ l : List KV, keysWeight (bucket d l) ≤ keysWeight l
  | [] => Nat.le_refl 0
  | kv :: rest => by
    have ih := bucket_weight_le d rest
    unfold bucket at ih ⊢
    rw [List.filter_cons]
    by_cases h : (kv.key.head? == some d) = true
    · rw [if_pos h, List.map_cons, keysWeight_cons, keysWeight_cons]
      dsimp only
      have hlen : kv.key.tail.length ≤ kv.key.length := by
        cases hk : kv.key <;> simp [hk]
      omega
    · rw [if_neg h, keysWeight_cons]
      omega

theorem bucket_weight_lt (d : Nib) : ∀ (l : List KV), l ≠ [] → (∀ kv ∈ l, kv.key ≠ []) →
    keysWeight (bucket d l) < keysWeight l
  | [], h, _ => absurd rfl h
  | kv :: rest, _, hk => by
    have hkv : kv.key ≠ [] := hk kv (List.mem_cons_self _ _)
    have hpos : 1 ≤ kv.key.length := by
      cases hkk : kv.key with
      | nil => exact absurd hkk hkv
      | cons a l => simp [hkk]
    have ihle := bucket_weight_le d rest
    unfold bucket at ihle ⊢
    rw [List.filter_cons]
    by_cases h : (kv.key.head? == some d) = true
    · rw [if_pos h, List.map_cons, keysWeight_cons, keysWeight_cons]
      dsimp only
      have hlen : kv.key.tail.length = kv.key.length - 1 := by
        cases hkk : kv.key <;> simp [hkk]
      omega
    · rw [if_neg h, keysWeight_cons]
      omega

theorem keysWeight_strip_le (n : Nat) :
    ∀ l : List KV, keysWeight (l.map fun kv => KV.mk (kv.key.drop n) kv.value) ≤ keysWeight l
  | [] => Nat.le_refl 0
  | kv :: rest => by
    rw [List.map_cons, keysWeight_cons, keysWeight_cons]
    dsimp only
    have ih := keysWeight_strip_le n rest
    have hl : (kv.key.drop n).length ≤ kv.key.length := by simp
    omega

/-- The fuel of `loopF` is irrelevant as long as it exceeds the total key
weight of the working set: every recursive call strictly decreases that
weight, so `Tree.fromList`'s choice `keysWeight kvs + 1` never reaches the
fuel-exhaustion branch. -/
theorem loopF_fuel_eq : ∀ (f1 f2 : Nat) (kvs : List KV), keysWeight kvs < f1 →
    keysWeight kvs < f2 → loopF f1 kvs = loopF f2 kvs
  | 0, _, kvs, h1, _ => absurd h1 (by omega)
  | _ + 1, 0, kvs, _, h2 => absurd h2 (by omega)
  | f1 + 1, f2 + 1, [], _, _ => by rw [loopF, loopF]
  | f1 + 1, f2 + 1, [kv], _, _ => by rw [loopF, loopF]
  | f1 + 1, f2 + 1, kv0 :: kv1 :: krest, h1, h2 => by
    rw [loopF, loopF]
    dsimp only
    set p := commonPfx ((kv0 :: kv1 :: krest).map KV.key) with hp
    set stripped := (kv0 :: kv1 :: krest).map
      (fun kv => KV.mk (kv.key.drop p.length) kv.value) with hs
    by_cases hall : (stripped.all fun kv => !kv.key.isEmpty) = true
    · rw [if_pos hall, if_pos hall]
      have hkeys : ∀ kv ∈ stripped, kv.key ≠ [] := by
        intro kv hkv
        have := (List.all_eq_true.mp hall) kv hkv
        simpa using this
      have hsne : stripped ≠ [] := by rw [hs]; simp
      have hstrip : keysWeight stripped ≤ keysWeight (kv0 :: kv1 :: krest) := by
        rw [hs]
        exact keysWeight_strip_le _ _
      have hmap : ((List.finRange 16).map fun d => loopF f1 (bucket d stripped))
          = (List.finRange 16).map fun d => loopF f2 (bucket d stripped) :=
        List.map_congr_left fun d _ => by
          have hlt := bucket_weight_lt d stripped hsne hkeys
          exact loopF_fuel_eq f1 f2 (bucket d stripped) (by omega) (by omega)
      rw [hmap]
    · rw [if_neg hall, if_neg hall]

end MPF
